import Mathlib

/-!
Verification development for the MLOPS feature-engineering frontend and the
feature transformation pipeline engine it drives.

The frontend definitions are shallow embeddings of
`src/frontend/src/components/features/FeatureWorkflowDialog.tsx` (the
workflow dialog: pipeline builder, manage tab, save handlers) and
`src/frontend/src/components/features/FeatureAnalysisDialog.tsx` (the
analysis dialog).  The backend pipeline executor, the time-aware
`groupby_agg` operation and the auto-generation pruning are not part of the
repository sources available here; those definitions are modelled from the
specification and are marked as such in their doc comments.

JavaScript objects carrying transformation arguments are modelled as ordered
association lists (`Args`); setting a key to `undefined` in JS is
observationally the same as removing the key (property lookup yields
`undefined` and `JSON.stringify` omits it), so it is modelled as removal.
-/

namespace MLOPS

/-- A row-filter condition `{col, op, val}` as built by the Manage tab UI. -/
structure FilterCond where
  col : String
  fop : String
  val : String
deriving DecidableEq, Repr

/-- Values that appear in transformation-step argument objects in the
frontend: strings (select/input values), numbers (lag periods), lists of
column names (composite group keys, group filters) and filter condition
lists. -/
inductive ArgVal where
  | str : String → ArgVal
  | num : Int → ArgVal
  | strList : List String → ArgVal
  | conds : List FilterCond → ArgVal
deriving DecidableEq, Repr

/-- A JS argument object, as an ordered association list.  `JSON.stringify`
equality on such objects is structural equality of this list. -/
abbrev Args := List (String × ArgVal)

/-- Property lookup `args.k` (first binding wins, as in a JS object where
keys are unique; the frontend never builds duplicate keys). -/
def argLookup (args : Args) (k : String) : Option ArgVal :=
  (args.find? (fun p => p.1 == k)).map (·.2)

/-- JS `{...args, k: v}`: replace the value of `k` in place if the key is
present, otherwise append the binding. -/
def jsSetKey (args : Args) (k : String) (v : ArgVal) : Args :=
  if args.any (fun p => p.1 == k) then
    args.map (fun p => if p.1 == k then (k, v) else p)
  else args ++ [(k, v)]

/-- JS `{...args, k: undefined}`, observationally the removal of key `k`. -/
def jsDelKey (args : Args) (k : String) : Args :=
  args.filter (fun p => p.1 ≠ k)

/-- A pipeline step as held in the dialog's `pipelineSteps` React state:
`{op, cols, args}`.  The random `id` field is only used as a React key and
for step removal, and carries no data, so it is not modelled. -/
structure TStep where
  op : String
  cols : List String
  args : Args
deriving DecidableEq, Repr

/-- A flat transformation record `{op, col, ...args}` as sent to the
registry API by `handleBuilderSubmit` / `handleSaveActiveFeatures`.  The JS
object spreads `op` and `col` first and then the argument keys; the
rest-pattern destructuring in `groupTransformations` recovers exactly the
argument keys, so the record is faithfully a triple. -/
structure FlatTrans where
  op : String
  col : String
  args : Args
deriving DecidableEq, Repr

/-- Submit-time flattening (`handleBuilderSubmit` / `handleSaveActiveFeatures`):
`pipelineSteps.flatMap(step => step.cols.map(col => ({op, col, ...args})))`. -/
def flattenSteps (steps : List TStep) : List FlatTrans :=
  steps.flatMap (fun s => s.cols.map (fun c => ⟨s.op, c, s.args⟩))

/-- Inner loop of `groupTransformations`: `cur` is the open `currentGroup`;
a record matching the group's `op` and (stringified) `args` pushes its `col`
onto the group, otherwise the group is closed and a new one is opened. -/
def groupAccum (cur : TStep) : List FlatTrans → List TStep
  | [] => [cur]
  | f :: rest =>
      if f.op = cur.op ∧ f.args = cur.args then
        groupAccum { cur with cols := cur.cols ++ [f.col] } rest
      else
        cur :: groupAccum ⟨f.op, [f.col], f.args⟩ rest

/-- The helper `groupTransformations` at the bottom of
`FeatureWorkflowDialog.tsx`: regroups the flat transformation list loaded
from the registry into UI pipeline steps by coalescing consecutive records
with the same `op` and `JSON.stringify`-equal `args`. -/
def groupTransformations : List FlatTrans → List TStep
  | [] => []
  | f :: rest => groupAccum ⟨f.op, [f.col], f.args⟩ rest

/-- An optional argument-object entry: a JS object literal key whose value
may be `undefined` (in which case the key is observationally absent). -/
def optEntry (k : String) (v : Option ArgVal) : Args :=
  match v with
  | some x => [(k, x)]
  | none => []

/-- The builder-tab React state consulted by `addStep`:
`pipelineSteps`, `selectedCols` and `newOp = {op, args}`. -/
structure BuilderState where
  pipelineSteps : List TStep
  selectedCols : List String
  opName : String
  opArgs : Args
deriving DecidableEq, Repr

/-- Decimal parsing of an all-digit string (the happy path of JS
`parseInt`); any other string is treated as a parse failure. -/
def parseNatDec (s : String) : Option Nat :=
  if s.data ≠ [] ∧ s.data.all Char.isDigit then
    some (s.data.foldl (fun acc c => acc * 10 + (c.toNat - 48)) 0)
  else none

/-- Parsing of `parseInt(newOp.args.max_lag || "1")` in `addStep`.  A missing
or empty (falsy) `max_lag` defaults to `"1"`; a non-numeric string parses to
`NaN` (`none` here), which makes the `for (i = 1; i <= maxLag; ...)` loop run
zero times. -/
def maxLagOf (args : Args) : Option Nat :=
  match argLookup args "max_lag" with
  | some (ArgVal.str s) => if s = "" then some 1 else parseNatDec s
  | none => some 1
  | _ => none

/-- Argument object of one generated lag step:
`{group_col: ..., sort_col: ..., periods: i}` (absent `group_col`/`sort_col`
keys hold `undefined` and are observationally absent). -/
def lagStepArgs (args : Args) (i : Int) : Args :=
  optEntry "group_col" (argLookup args "group_col") ++
    optEntry "sort_col" (argLookup args "sort_col") ++ [("periods", ArgVal.num i)]

/-- The lag steps pushed by `addStep` for `op = "lag"`: one step per period
`1..maxLag`, each carrying a copy of the full selected-column list. -/
def lagSteps (st : BuilderState) : List TStep :=
  match maxLagOf st.opArgs with
  | some n =>
      (List.range n).map
        (fun (k : Nat) => ⟨"lag", st.selectedCols, lagStepArgs st.opArgs ((k : Int) + 1)⟩)
  | none => []

/-- `finalGroupCol` of the `groupby_agg` branch of `addStep`: when one or
more `group_filters` are chosen, the composite list
`[newOp.args.group_col, ...newOp.args.group_filters]`, otherwise the
primary `group_col` value unchanged. -/
def groupbyFinalGroupCol (args : Args) : ArgVal :=
  match argLookup args "group_filters" with
  | some (ArgVal.strList (f :: fs)) =>
      ArgVal.strList
        ((match argLookup args "group_col" with
          | some (ArgVal.str p) => p
          | _ => "") :: f :: fs)
  | _ => (argLookup args "group_col").getD (ArgVal.str "")

/-- Stored args of the `groupby_agg` step:
`{...newOp.args, group_col: finalGroupCol, group_filters: undefined}`. -/
def groupbyStepArgs (args : Args) : Args :=
  jsDelKey (jsSetKey args "group_col" (groupbyFinalGroupCol args)) "group_filters"

/-- The `addStep` handler of the Feature Builder tab: a no-op when no column
is selected; for `"lag"` it pushes one step per period `1..max_lag`; for
`"groupby_agg"` it pushes one step with the composite group key and the
`group_filters` key removed; for every other op it pushes one step with the
selected columns and a copy of the configured args.  In all pushing branches
the column selection is cleared afterwards. -/
def addStep (st : BuilderState) : BuilderState :=
  if st.selectedCols = [] then st
  else if st.opName = "lag" then
    { st with pipelineSteps := st.pipelineSteps ++ lagSteps st, selectedCols := [] }
  else if st.opName = "groupby_agg" then
    { st with
      pipelineSteps :=
        st.pipelineSteps ++ [⟨"groupby_agg", st.selectedCols, groupbyStepArgs st.opArgs⟩]
      selectedCols := [] }
  else
    { st with
      pipelineSteps := st.pipelineSteps ++ [⟨st.opName, st.selectedCols, st.opArgs⟩]
      selectedCols := [] }

/-- The `Add Filter Column` select handler of the `groupby_agg` builder UI:
an empty value is ignored, a value already chosen is ignored, otherwise the
column is appended to `group_filters` (so the list records selection order). -/
def addGroupFilterColumn (current : List String) (c : String) : List String :=
  if c = "" then current
  else if c ∈ current then current
  else current ++ [c]

/-- The fresh step created by the Manage tab's `Add Global Filter` button
when no filter step exists yet: op `"filter"`, an EMPTY `cols` list, and a
single blank condition on the first available column. -/
def mkGlobalFilterStep (columns : List String) : TStep :=
  ⟨"filter", [], [("conditions", ArgVal.conds [⟨columns.headD "", "eq", ""⟩])]⟩

/-- Conditions list of a step (`step.args.conditions || []`). -/
def stepConditions (s : TStep) : List FilterCond :=
  match argLookup s.args "conditions" with
  | some (ArgVal.conds cs) => cs
  | _ => []

/-- The `Add Global Filter` click handler: append a blank condition to the
first existing `"filter"` step, or prepend a fresh filter step (with empty
`cols`) when none exists. -/
def addGlobalFilter (steps : List TStep) (columns : List String) : List TStep :=
  match steps.findIdx? (fun s => s.op == "filter") with
  | some i =>
      match steps[i]? with
      | some s =>
          steps.set i
            { s with
              args := jsSetKey s.args "conditions"
                (ArgVal.conds (stepConditions s ++ [⟨columns.headD "", "eq", ""⟩])) }
      | none => steps
  | none => mkGlobalFilterStep columns :: steps

/-- Body of a `PUT /features/sets/{id}` update request.  Each field is
`none` when the corresponding key is absent from the JSON body.
`targetColumn = some none` models an explicit `target_column: null`. -/
structure UpdateBody where
  name : Option String
  datasetVersionId : Option Int
  version : Option String
  transformations : Option (List FlatTrans)
  activeFeatures : Option (List String)
  targetColumn : Option (Option String)
deriving DecidableEq, Repr

/-- The identifying metadata of the feature set being edited
(`currentFeatureSet`) that the workflow dialog copies into its requests. -/
structure FeatureSetMeta where
  fsName : String
  datasetVersionId : Int
  version : String
deriving DecidableEq, Repr

/-- Request body built by `handleSaveActiveFeatures` (the workflow dialog's
Manage-tab `Save Selection`): it sends `name`, `dataset_version_id`,
`version`, the FLATTENED current `pipelineSteps` as `transformations`, the
selection as `active_features`, and `activeTargetCol || null` as
`target_column`. -/
def saveActiveFeaturesBody (fs : FeatureSetMeta) (steps : List TStep)
    (active : List String) (target : String) : UpdateBody :=
  { name := some fs.fsName
    datasetVersionId := some fs.datasetVersionId
    version := some fs.version
    transformations := some (flattenSteps steps)
    activeFeatures := some active
    targetColumn := some (if target = "" then none else some target) }

/-- Request body built by `handleSaveFeatures` in the analysis dialog's
`Save Selection`: only `active_features` and `target_column`. -/
def analysisSaveBody (selected : List String) (target : String) : UpdateBody :=
  { name := none
    datasetVersionId := none
    version := none
    transformations := none
    activeFeatures := some selected
    targetColumn := some (some target) }

/-- Modelled from the spec: a registry update request is metadata-only (no
recompute of the materialization) when it provides nothing besides
`active_features` and `target_column` — in particular no `transformations`
(step) list. -/
def metadataOnlyRequest (b : UpdateBody) : Prop :=
  b.transformations = none ∧ b.name = none ∧ b.datasetVersionId = none ∧ b.version = none

instance (b : UpdateBody) : Decidable (metadataOnlyRequest b) := by
  unfold metadataOnlyRequest; infer_instance

/-- React state of the Manage tab's active-feature transfer list:
available columns, the selection (`activeFeatureSelection`), the highlighted
items of the two boxes (`leftSelection`, `rightSelection`) and the target
column (`activeTargetCol`). -/
structure ManageState where
  columns : List String
  activeSel : List String
  leftSel : List String
  rightSel : List String
  target : String
deriving DecidableEq, Repr

/-- The rendered left (`Available`) list: columns neither selected as active
features nor equal to the current target. -/
def leftListOf (st : ManageState) : List String :=
  st.columns.filter (fun c => c ∉ st.activeSel ∧ c ≠ st.target)

/-- User actions on the Manage tab that affect the submitted selection:
clicking an item in either box, the four transfer buttons, and changing the
target column select. -/
inductive MAction where
  | toggleLeft : String → MAction
  | toggleRight : String → MAction
  | moveRight : MAction
  | moveLeft : MAction
  | moveAllRight : MAction
  | moveAllLeft : MAction
  | setTarget : String → MAction
deriving DecidableEq, Repr

/-- One Manage-tab action, as implemented by `toggleSelection`, `moveRight`,
`moveLeft`, `moveAllRight`, `moveAllLeft` and the target select handler. -/
def mStep (st : ManageState) : MAction → ManageState
  | MAction.toggleLeft c =>
      { st with leftSel := if c ∈ st.leftSel then st.leftSel.filter (· ≠ c) else st.leftSel ++ [c] }
  | MAction.toggleRight c =>
      { st with rightSel := if c ∈ st.rightSel then st.rightSel.filter (· ≠ c) else st.rightSel ++ [c] }
  | MAction.moveRight => { st with activeSel := st.activeSel ++ st.leftSel, leftSel := [] }
  | MAction.moveLeft => { st with activeSel := st.activeSel.filter (· ∉ st.rightSel), rightSel := [] }
  | MAction.moveAllRight =>
      { st with activeSel := st.columns.filter (· ≠ st.target), leftSel := [] }
  | MAction.moveAllLeft => { st with activeSel := [], rightSel := [] }
  | MAction.setTarget t => { st with target := t }

/-- UI-reachability of an action: items can only be clicked while rendered
(left box renders `leftListOf`, right box renders the active selection);
buttons and the target select are always available. -/
def validAction (st : ManageState) : MAction → Prop
  | MAction.toggleLeft c => c ∈ leftListOf st
  | MAction.toggleRight c => c ∈ st.activeSel
  | _ => True

instance (st : ManageState) (a : MAction) : Decidable (validAction st a) := by
  cases a <;> (unfold validAction; infer_instance)

/-- Run a sequence of Manage-tab actions. -/
def runActions (st : ManageState) : List MAction → ManageState
  | [] => st
  | a :: rest => runActions (mStep st a) rest

/-- A trace is valid when every action is UI-reachable in the state where it
fires. -/
def validTrace (st : ManageState) : List MAction → Prop
  | [] => True
  | a :: rest => validAction st a ∧ validTrace (mStep st a) rest

/-- Token produced by `handleDragStart` in `FormulaBuilder` when a column
chip is dragged: the column name wrapped in backticks. -/
def dragStartToken (col : String) : String :=
  "`" ++ col ++ "`"

/-- The `insertText` splice of `FormulaBuilder`: text replaces the
`[selectionStart, selectionEnd)` range of the expression. -/
def insertTextAt (expr : String) (s e : Nat) (text : String) : String :=
  expr.take s ++ text ++ expr.drop e

/-- Result of dropping a dragged column chip on the formula textarea
(`handleDrop` inserts the transferred `text/plain` token via `insertText`). -/
def dropColumnToken (expr : String) (s e : Nat) (col : String) : String :=
  insertTextAt expr s e (dragStartToken col)

/-- Modelled from the spec: a materialization table as a list of named
columns; cells are `Option ℚ` where `none` is a missing value (the backend
pipeline-executor source is not part of the available repository files). -/
abbrev Table := List (String × List (Option ℚ))

instance exceptDecEq {ε α : Type} [DecidableEq ε] [DecidableEq α] :
    DecidableEq (Except ε α) := fun a b =>
  match a, b with
  | Except.ok x, Except.ok y =>
      if h : x = y then Decidable.isTrue (by rw [h]) else
        Decidable.isFalse (fun he => h (Except.ok.inj he))
  | Except.error x, Except.error y =>
      if h : x = y then Decidable.isTrue (by rw [h]) else
        Decidable.isFalse (fun he => h (Except.error.inj he))
  | Except.ok _, Except.error _ => Decidable.isFalse (fun he => Except.noConfusion he)
  | Except.error _, Except.ok _ => Decidable.isFalse (fun he => Except.noConfusion he)

/-- Column lookup in a table. -/
def getCol (t : Table) (name : String) : Option (List (Option ℚ)) :=
  (t.find? (fun p => p.1 == name)).map (·.2)

/-- Replace the values of an existing column in place. -/
def setCol (t : Table) (name : String) (vals : List (Option ℚ)) : Table :=
  t.map (fun p => if p.1 == name then (name, vals) else p)

/-- Modelled from the spec (§4.1, §7): apply one flat transformation record
to a table.  A representative subset of the op catalog is embedded —
`fillna`, `clip` and scalar `arithmetic` (division by zero silently becomes
missing) — together with the spec's validation failures: unknown op kind,
missing referenced column and malformed args are errors. -/
def applyStep (t : Table) (s : FlatTrans) : Except String Table :=
  match getCol t s.col with
  | none => Except.error ("missing column " ++ s.col)
  | some vals =>
    if s.op = "fillna" then
      match argLookup s.args "value" with
      | some (ArgVal.num v) =>
          Except.ok (setCol t s.col (vals.map (fun x => some (x.getD (v : ℚ)))))
      | _ => Except.error "malformed args: fillna needs value"
    else if s.op = "clip" then
      match argLookup s.args "lower", argLookup s.args "upper" with
      | some (ArgVal.num lo), some (ArgVal.num hi) =>
          Except.ok (setCol t s.col
            (vals.map (fun x => x.map (fun q => max (lo : ℚ) (min (hi : ℚ) q)))))
      | _, _ => Except.error "malformed args: clip needs lower and upper"
    else if s.op = "arithmetic" then
      match argLookup s.args "operator", argLookup s.args "value" with
      | some (ArgVal.str o), some (ArgVal.num v) =>
          if o = "add" then
            Except.ok (setCol t s.col (vals.map (fun x => x.map (· + (v : ℚ)))))
          else if o = "mul" then
            Except.ok (setCol t s.col (vals.map (fun x => x.map (· * (v : ℚ)))))
          else if o = "div" then
            Except.ok (setCol t s.col
              (vals.map (fun x => x.bind (fun q => if (v : ℚ) = 0 then none else some (q / v)))))
          else Except.error ("malformed args: unknown operator " ++ o)
      | _, _ => Except.error "malformed args: arithmetic needs operator and value"
    else Except.error ("unknown op " ++ s.op)

/-- Modelled from the spec (§4.2): run the steps strictly in order from
position `j`, aborting at the first failure with the failing step's absolute
index and reason. -/
def execFrom (t : Table) (j : Nat) : List FlatTrans → Except (Nat × String) Table
  | [] => Except.ok t
  | s :: rest =>
      match applyStep t s with
      | Except.ok t2 => execFrom t2 (j + 1) rest
      | Except.error r => Except.error (j, r)

/-- Modelled from the spec: `execute(snapshot, steps) -> Materialization |
Error(step_index, reason)`. -/
def executeSteps (snap : Table) (steps : List FlatTrans) : Except (Nat × String) Table :=
  execFrom snap 0 steps

/-- Modelled from the spec (§4.5): the registry's materialization update —
commit the new table on success, keep the previously committed
materialization untouched on any failure. -/
def registryUpdate (prev : Option Table) (snap : Table) (steps : List FlatTrans) :
    Option Table :=
  match executeSteps snap steps with
  | Except.ok t => some t
  | Except.error _ => prev

/-- Modelled from the spec: one input row for time-aware `groupby_agg` — a
group key, a `date_col` value and the (threshold-prefiltered) value of the
aggregated column. -/
structure GRow where
  grp : String
  date : Int
  val : Option ℚ
deriving DecidableEq, Repr

/-- Modelled from the spec: the strictly-past same-group window of a row —
the present values of all rows of the same group whose `date_col` is
strictly earlier than the row's own. -/
def pastWindow (rows : List GRow) (r : GRow) : List ℚ :=
  (rows.filter (fun r2 => r2.grp = r.grp ∧ r2.date < r.date)).filterMap (·.val)

/-- Modelled from the spec: `groupby_agg` with `date_col` present computes,
for each row, the aggregate `g` of its strictly-past same-group window
(expanding / as-of window).  `g` is the aggregation function (mean, max,
min, std, count) abstracted over the collected window values. -/
def groupbyAggAsOf (g : List ℚ → Option ℚ) (rows : List GRow) : List (Option ℚ) :=
  rows.map (fun r => g (pastWindow rows r))

/-- A generated candidate column of the auto-generator. -/
structure GenCol where
  name : String
  vals : List ℚ
deriving DecidableEq, Repr

/-- Mean of a list of rationals (0 for the empty list). -/
def listMean (l : List ℚ) : ℚ := l.sum / l.length

/-- Population variance of a list of rationals. -/
def listVar (l : List ℚ) : ℚ :=
  ((l.map (fun x => (x - listMean l) ^ 2)).sum) / l.length

/-- Covariance of two equally long lists of rationals. -/
def listCov (xs ys : List ℚ) : ℚ :=
  (((xs.zip ys).map (fun p => (p.1 - listMean xs) * (p.2 - listMean ys))).sum) / xs.length

/-- Modelled from the spec: whether the absolute Pearson correlation of two
columns exceeds `ct`.  Stated over squares to stay in ℚ: for positive
variances and `ct ≥ 0`, `|cov| / sqrt(var·var) > ct ↔ cov² > ct²·var·var`. -/
def corrExceeds (a b : GenCol) (ct : ℚ) : Bool :=
  decide (ct ^ 2 * listVar a.vals * listVar b.vals < listCov a.vals b.vals ^ 2)

/-- Modelled from the spec (§4.3): the variance stage of pruning — drop any
generated column whose variance is below `variance_threshold`, and always
drop exact-zero-variance columns regardless of the threshold. -/
def varianceKept (cols : List GenCol) (vt : ℚ) : List GenCol :=
  cols.filter (fun c => ¬ listVar c.vals < vt ∧ listVar c.vals ≠ 0)

/-- One iteration of the correlation pruning: keep `c` unless an
already-kept column correlates with it above the threshold. -/
def corrStep (ct : ℚ) (kept : List GenCol) (c : GenCol) : List GenCol :=
  if kept.any (fun k => corrExceeds k c ct) then kept else kept ++ [c]

/-- Modelled from the spec (§4.3): the correlation stage — iterate the kept
columns in generation order and drop any later column whose absolute
pairwise correlation with an already-kept column exceeds
`correlation_threshold`. -/
def corrKept (cols : List GenCol) (ct : ℚ) : List GenCol :=
  cols.foldl (corrStep ct) []

/-- Modelled from the spec: the full deterministic auto-generation pruning. -/
def autoPrune (cols : List GenCol) (vt ct : ℚ) : List GenCol :=
  corrKept (varianceKept cols vt) ct

instance validTraceDec : (st : ManageState) → (acts : List MAction) → Decidable (validTrace st acts)
  | _, [] => Decidable.isTrue trivial
  | st, a :: rest =>
      have : Decidable (validTrace (mStep st a) rest) := validTraceDec _ _
      inferInstanceAs (Decidable (validAction st a ∧ validTrace (mStep st a) rest))

/-- Whether a Manage-tab action is not a target change. -/
def keepsTarget : MAction → Bool
  | MAction.setTarget _ => false
  | _ => true

/-- C7: every column name inserted into the custom-formula expression by
dragging it from the column list is wrapped in backtick delimiters in the
inserted token, for every column name (in particular names containing
whitespace), and dropping the token splices exactly the backtick-delimited
name into the expression at the cursor range. -/
theorem c7_drag_token_backtick_delimited :
    ∀ (col expr : String) (s e : Nat),
      (dragStartToken col).data = '`' :: (col.data ++ ['`']) ∧
      dropColumnToken expr s e col =
        expr.take s ++ "`" ++ col ++ "`" ++ expr.drop e := by
  intro col expr s e
  constructor
  · show (("`" ++ col) ++ "`").data = _
    simp [String.data_append]
  · show expr.take s ++ (("`" ++ col) ++ "`") ++ expr.drop e = _
    simp [String.append_assoc]

/-- C1, counterexample: the workflow dialog's Manage-tab `Save Selection`
(`handleSaveActiveFeatures`) is not a metadata-only update — at this
concrete dialog state its PUT body carries the flattened transformation
step list (as well as name, dataset version and version tag), contradicting
the claim that the request changes nothing besides `active_features` and
`target_column`. -/
theorem c1_counterexample :
    ¬ metadataOnlyRequest
        (saveActiveFeaturesBody ⟨"fs1", 7, "v1"⟩ [⟨"log", ["a"], []⟩] ["a", "b"] "y") ∧
      (saveActiveFeaturesBody ⟨"fs1", 7, "v1"⟩ [⟨"log", ["a"], []⟩] ["a", "b"] "y").transformations =
        some [⟨"log", "a", []⟩] := by
  constructor
  · intro h
    exact absurd h.1 (by simp [saveActiveFeaturesBody])
  · rfl

/-- C1, amended: only the analysis dialog's `Save Selection`
(`handleSaveFeatures`) is a metadata-only update carrying nothing besides
`active_features` and `target_column`; the workflow dialog's Manage-tab
`Save Selection` (`handleSaveActiveFeatures`) always additionally submits
the name, dataset version, version tag and the full flattened
transformation list of the current pipeline state. -/
theorem c1_amended_metadata_only_analysis_save :
    ∀ (selected : List String) (target : String) (fs : FeatureSetMeta)
      (steps : List TStep) (active : List String) (tgt : String),
      metadataOnlyRequest (analysisSaveBody selected target) ∧
      (analysisSaveBody selected target).activeFeatures = some selected ∧
      (analysisSaveBody selected target).targetColumn = some (some target) ∧
      (saveActiveFeaturesBody fs steps active tgt).transformations =
        some (flattenSteps steps) ∧
      (saveActiveFeaturesBody fs steps active tgt).name = some fs.fsName := by
  intro selected target fs steps active tgt
  exact ⟨⟨rfl, rfl, rfl, rfl⟩, rfl, rfl, rfl, rfl⟩

/-- C2, counterexample: a UI-reachable action sequence in the Manage tab —
add all columns to the active selection while no target is chosen, then pick
target `"a"` — leaves the new target inside `activeFeatureSelection`, so the
subsequent `Save Selection` submits `active_features` containing the
submitted `target_column`. -/
theorem c2_counterexample :
    validAction ⟨["a", "b"], [], [], [], ""⟩ MAction.moveAllRight ∧
      validAction (mStep ⟨["a", "b"], [], [], [], ""⟩ MAction.moveAllRight)
        (MAction.setTarget "a") ∧
      (runActions ⟨["a", "b"], [], [], [], ""⟩
          [MAction.moveAllRight, MAction.setTarget "a"]).target = "a" ∧
      (runActions ⟨["a", "b"], [], [], [], ""⟩
            [MAction.moveAllRight, MAction.setTarget "a"]).target ∈
        (runActions ⟨["a", "b"], [], [], [], ""⟩
            [MAction.moveAllRight, MAction.setTarget "a"]).activeSel ∧
      (saveActiveFeaturesBody ⟨"fs1", 7, "v1"⟩ []
          (runActions ⟨["a", "b"], [], [], [], ""⟩
              [MAction.moveAllRight, MAction.setTarget "a"]).activeSel
          "a").activeFeatures = some ["a", "b"] ∧
      (saveActiveFeaturesBody ⟨"fs1", 7, "v1"⟩ []
          (runActions ⟨["a", "b"], [], [], [], ""⟩
              [MAction.moveAllRight, MAction.setTarget "a"]).activeSel
          "a").targetColumn = some (some "a") := by
  refine ⟨trivial, trivial, rfl, ?_, rfl, rfl⟩
  decide

lemma mStep_preserves_target_not_selected (st : ManageState) (a : MAction)
    (h1 : st.target ∉ st.activeSel) (h2 : st.target ∉ st.leftSel)
    (hv : validAction st a) (hk : keepsTarget a = true) :
    (mStep st a).target ∉ (mStep st a).activeSel ∧
      (mStep st a).target ∉ (mStep st a).leftSel := by
  cases a with
  | toggleLeft c =>
      refine ⟨h1, ?_⟩
      have hc : c ≠ st.target := by
        simp only [validAction, leftListOf, List.mem_filter, decide_eq_true_eq] at hv
        exact hv.2.2
      simp only [mStep]
      split_ifs with hmem
      · exact fun h => h2 (List.mem_of_mem_filter h)
      · intro h
        rcases List.mem_append.mp h with h | h
        · exact h2 h
        · simp only [List.mem_singleton] at h
          exact hc h.symm
  | toggleRight c => exact ⟨h1, h2⟩
  | moveRight =>
      refine ⟨?_, by simp [mStep]⟩
      simp only [mStep, List.mem_append]
      exact fun h => h.elim h1 h2
  | moveLeft =>
      exact ⟨fun h => h1 (List.mem_of_mem_filter h), h2⟩
  | moveAllRight =>
      refine ⟨?_, by simp [mStep]⟩
      simp [mStep, List.mem_filter]
  | moveAllLeft => exact ⟨by simp [mStep], h2⟩
  | setTarget t => simp [keepsTarget] at hk

/-- C2, amended: as long as the target column is fixed (no target-change
action) and the initial Manage-tab state does not already have the target
among the selected or highlighted-available features, every UI-reachable
sequence of selection/deselection actions preserves that the submitted
`active_features` does not contain the submitted `target_column`.  (The
original claim fails because a target change after selection — or the
default initialization that selects all columns — can leave the target
inside the selection.) -/
theorem c2_amended_fixed_target :
    ∀ (acts : List MAction) (st : ManageState) (fs : FeatureSetMeta)
      (steps : List TStep),
      st.target ∉ st.activeSel →
      st.target ∉ st.leftSel →
      validTrace st acts →
      (∀ a ∈ acts, keepsTarget a = true) →
      (runActions st acts).target ∉ (runActions st acts).activeSel ∧
        (saveActiveFeaturesBody fs steps (runActions st acts).activeSel
            (runActions st acts).target).activeFeatures =
          some ((runActions st acts).activeSel) := by
  intro acts
  induction acts with
  | nil =>
      intro st fs steps h1 _ _ _
      exact ⟨h1, rfl⟩
  | cons a rest ih =>
      intro st fs steps h1 h2 hv hk
      obtain ⟨hva, hvt⟩ := hv
      have hpres := mStep_preserves_target_not_selected st a h1 h2 hva
        (hk a (List.mem_cons_self a rest))
      exact ih (mStep st a) fs steps hpres.1 hpres.2 hvt
        (fun b hb => hk b (List.mem_cons_of_mem a hb))

/-- C2, amended, witness: a concrete valid trace with fixed target `"a"` —
toggle column `"b"` in the available box and move it right — ends with the
target outside the submitted selection. -/
theorem c2_amended_fixed_target_witness :
    (runActions ⟨["a", "b"], [], [], [], "a"⟩
        [MAction.toggleLeft "b", MAction.moveRight]).target ∉
      (runActions ⟨["a", "b"], [], [], [], "a"⟩
          [MAction.toggleLeft "b", MAction.moveRight]).activeSel :=
  (c2_amended_fixed_target [MAction.toggleLeft "b", MAction.moveRight]
    ⟨["a", "b"], [], [], [], "a"⟩ ⟨"fs1", 7, "v1"⟩ []
    (by decide) (by decide) (by decide) (by decide)).1

lemma pastWindow_append_future (rows : List GRow) (r n : GRow)
    (hd : r.date < n.date) : pastWindow (rows ++ [n]) r = pastWindow rows r := by
  unfold pastWindow
  rw [List.filter_append]
  have : List.filter (fun r2 => decide (r2.grp = r.grp ∧ r2.date < r.date)) [n] = [] := by
    simp only [List.filter, decide_eq_true_eq]
    rw [decide_eq_false]
    rintro ⟨-, hlt⟩
    exact lt_asymm hd hlt
  rw [this, List.append_nil]

/-- C4: with `date_col` present, each row's `groupby_agg` aggregate is the
aggregation function applied only to the values of same-group rows with
strictly earlier `date_col`; consequently appending a row with a strictly
later `date_col` leaves the computed aggregate of every same-group row that
precedes it unchanged. -/
theorem c4_asof_window_insert_invariant :
    ∀ (g : List ℚ → Option ℚ) (rows : List GRow) (n r : GRow) (i : Nat),
      rows[i]? = some r →
      r.grp = n.grp →
      r.date < n.date →
      (groupbyAggAsOf g rows)[i]? = some (g (pastWindow rows r)) ∧
        (groupbyAggAsOf g (rows ++ [n]))[i]? = some (g (pastWindow rows r)) := by
  intro g rows n r i hget _ hdate
  have hi : i < rows.length := by
    rcases List.getElem?_eq_some.mp hget with ⟨h, -⟩
    exact h
  constructor
  · unfold groupbyAggAsOf
    rw [List.getElem?_map, hget]
    rfl
  · unfold groupbyAggAsOf
    rw [List.getElem?_map, List.getElem?_append_left hi, hget]
    simp only [Option.map_some']
    rw [pastWindow_append_future rows r n hdate]

/-- C4, witness: appending a far-future row (date 100, value 999) to a
two-row group leaves the as-of sum aggregate of the earlier rows unchanged. -/
theorem c4_asof_window_insert_invariant_witness :
    (groupbyAggAsOf (fun l => some l.sum)
        [⟨"g", 1, some 10⟩, ⟨"g", 2, some 20⟩])[1]? = some (some 10) ∧
      (groupbyAggAsOf (fun l => some l.sum)
          ([⟨"g", 1, some 10⟩, ⟨"g", 2, some 20⟩] ++ [⟨"g", 100, some 999⟩]))[1]? =
        some (some 10) := by
  have h := c4_asof_window_insert_invariant (fun l => some l.sum)
    [⟨"g", 1, some 10⟩, ⟨"g", 2, some 20⟩] ⟨"g", 100, some 999⟩ ⟨"g", 2, some 20⟩ 1
    rfl rfl (by decide)
  have hval : (fun (l : List ℚ) => some l.sum)
      (pastWindow [⟨"g", 1, some 10⟩, ⟨"g", 2, some 20⟩] ⟨"g", 2, some 20⟩) =
      some (10 : ℚ) := by
    norm_num [pastWindow, List.filter, List.filterMap]
  exact ⟨h.1.trans (by rw [hval]), h.2.trans (by rw [hval])⟩

lemma findIdx?_none_of_all_false {α : Type} (p : α → Bool) :
    ∀ (l : List α), (∀ x ∈ l, p x = false) → ∀ (j : Nat), List.findIdx? p l j = none := by
  intro l
  induction l with
  | nil => intro _ _; rfl
  | cons x xs ih =>
      intro h j
      rw [List.findIdx?_cons, h x (List.mem_cons_self x xs)]
      simp only [Bool.false_eq_true, if_false]
      exact ih (fun y hy => h y (List.mem_cons_of_mem x hy)) (j + 1)

lemma flattenSteps_length (steps : List TStep) :
    (flattenSteps steps).length = (steps.map (fun t => t.cols.length)).sum := by
  induction steps with
  | nil => rfl
  | cons s rest ih =>
      unfold flattenSteps at ih ⊢
      rw [List.flatMap_cons, List.length_append, List.length_map, ih, List.map_cons,
        List.sum_cons]

lemma flattenSteps_append (l m : List TStep) :
    flattenSteps (l ++ m) = flattenSteps l ++ flattenSteps m := by
  unfold flattenSteps
  rw [List.flatMap_append]

/-- C8: the submit-time flattening emits exactly one transformation record
per (step, column) pair, in step order then column order; a pipeline step
with an empty `cols` list contributes zero records and is silently dropped
from the persisted list — in particular the filter step created by
`Add Global Filter`, which is always constructed with `cols = []`, so adding
a global filter never changes the flattened transformations. -/
theorem c8_flatten_drops_empty_cols_steps :
    ∀ (steps pre post : List TStep) (s : TStep) (columns : List String),
      (flattenSteps steps).length = (steps.map (fun t => t.cols.length)).sum ∧
      flattenSteps (pre ++ s :: post) =
        flattenSteps pre ++ s.cols.map (fun c => ⟨s.op, c, s.args⟩) ++ flattenSteps post ∧
      (s.cols = [] → flattenSteps (pre ++ s :: post) = flattenSteps (pre ++ post)) ∧
      (mkGlobalFilterStep columns).cols = [] ∧
      ((∀ t ∈ steps, t.op ≠ "filter") →
        addGlobalFilter steps columns = mkGlobalFilterStep columns :: steps ∧
          flattenSteps (addGlobalFilter steps columns) = flattenSteps steps) := by
  intro steps pre post s columns
  have hsplit : flattenSteps (pre ++ s :: post) =
      flattenSteps pre ++ s.cols.map (fun c => ⟨s.op, c, s.args⟩) ++ flattenSteps post := by
    rw [flattenSteps_append]
    unfold flattenSteps
    rw [List.flatMap_cons, List.append_assoc]
  refine ⟨flattenSteps_length steps, hsplit, ?_, rfl, ?_⟩
  · intro hnil
    rw [hsplit, hnil, List.map_nil, List.append_nil, flattenSteps_append]
  · intro hnof
    have hidx : steps.findIdx? (fun t => t.op == "filter") = none := by
      apply findIdx?_none_of_all_false
      intro t ht
      simpa using hnof t ht
    have hadd : addGlobalFilter steps columns = mkGlobalFilterStep columns :: steps := by
      unfold addGlobalFilter
      rw [hidx]
    refine ⟨hadd, ?_⟩
    rw [hadd]
    show flattenSteps ([mkGlobalFilterStep columns] ++ steps) = _
    rw [flattenSteps_append]
    rfl

/-- C8, witness: with a one-step pipeline having no filter step, adding a
global filter prepends an empty-`cols` filter step and the flattened
transformations are unchanged; a middle step with empty `cols` is omitted. -/
theorem c8_flatten_drops_empty_cols_steps_witness :
    flattenSteps ([⟨"log", ["a"], []⟩] ++ ⟨"filter", [], []⟩ :: [⟨"clip", ["b"], []⟩]) =
        flattenSteps ([⟨"log", ["a"], []⟩] ++ [⟨"clip", ["b"], []⟩]) ∧
      addGlobalFilter [⟨"log", ["a"], []⟩] ["x", "y"] =
        mkGlobalFilterStep ["x", "y"] :: [⟨"log", ["a"], []⟩] ∧
      flattenSteps (addGlobalFilter [⟨"log", ["a"], []⟩] ["x", "y"]) =
        flattenSteps [⟨"log", ["a"], []⟩] := by
  have h := c8_flatten_drops_empty_cols_steps [⟨"log", ["a"], []⟩] [⟨"log", ["a"], []⟩]
    [⟨"clip", ["b"], []⟩] ⟨"filter", [], []⟩ ["x", "y"]
  have hf := h.2.2.2.2 (by decide)
  exact ⟨h.2.2.1 rfl, hf.1, hf.2⟩

lemma find?_cons_true {α : Type} (p : α → Bool) (a : α) (l : List α) (h : p a = true) :
    List.find? p (a :: l) = some a := by
  simp [List.find?_cons, h]

lemma find?_cons_false {α : Type} (p : α → Bool) (a : α) (l : List α) (h : p a = false) :
    List.find? p (a :: l) = List.find? p l := by
  simp [List.find?_cons, h]

lemma argLookup_jsSetKey_self (args : Args) (k : String) (v : ArgVal) :
    argLookup (jsSetKey args k v) k = some v := by
  unfold jsSetKey
  split_ifs with hany
  · induction args with
    | nil => simp at hany
    | cons hd tl ih =>
        rw [List.map_cons]
        cases hk : hd.1 == k
        · rw [if_neg (by simp [hk])]
          unfold argLookup
          rw [find?_cons_false (fun p => p.1 == k) hd _ hk]
          have htl : tl.any (fun p => p.1 == k) = true := by
            rcases List.any_eq_true.mp hany with ⟨x, hx, hpx⟩
            rcases List.mem_cons.mp hx with rfl | hx2
            · exact absurd hpx (by simp [hk])
            · exact List.any_eq_true.mpr ⟨x, hx2, hpx⟩
          exact ih htl
        · have hif : (if true = true then (k, v) else hd) = (k, v) := if_pos rfl
          rw [hif]
          unfold argLookup
          rw [find?_cons_true (fun p => p.1 == k) (k, v) _ (by simp)]
          rfl
  · unfold argLookup
    have hnone : args.find? (fun p => p.1 == k) = none := by
      rw [List.find?_eq_none]
      intro x hx hpx
      exact hany (List.any_eq_true.mpr ⟨x, hx, hpx⟩)
    rw [List.find?_append, hnone]
    rw [show (none : Option (String × ArgVal)).or
        (List.find? (fun p => p.1 == k) [(k, v)]) =
        List.find? (fun p => p.1 == k) [(k, v)] from rfl]
    rw [find?_cons_true (fun p => p.1 == k) (k, v) _ (by simp)]
    rfl

lemma argLookup_jsDelKey_self (args : Args) (k : String) :
    argLookup (jsDelKey args k) k = none := by
  have hnone : List.find? (fun p => p.1 == k) (jsDelKey args k) = none := by
    rw [List.find?_eq_none]
    intro x hx
    have hne : x.1 ≠ k := by
      have := List.of_mem_filter hx
      simpa using this
    simpa using hne
  unfold argLookup
  rw [hnone]
  rfl

lemma argLookup_jsDelKey_ne (args : Args) (k k2 : String) (h : k ≠ k2) :
    argLookup (jsDelKey args k2) k = argLookup args k := by
  unfold argLookup jsDelKey
  induction args with
  | nil => rfl
  | cons hd tl ih =>
      by_cases hk2 : hd.1 = k2
      · have hf : (decide (hd.1 ≠ k2)) = false := by simpa using hk2
        rw [List.filter_cons, hf]
        simp only [Bool.false_eq_true, if_false]
        have hnk : (hd.1 == k) = false := by
          subst hk2
          simpa using fun he => h he.symm
        rw [find?_cons_false (fun p => p.1 == k) hd tl hnk]
        exact ih
      · have ht : (decide (hd.1 ≠ k2)) = true := by simpa using hk2
        rw [List.filter_cons, ht]
        simp only [if_true]
        cases hk : hd.1 == k
        · rw [find?_cons_false (fun p => p.1 == k) hd _ hk,
            find?_cons_false (fun p => p.1 == k) hd tl hk]
          exact ih
        · rw [find?_cons_true (fun p => p.1 == k) hd _ hk,
            find?_cons_true (fun p => p.1 == k) hd tl hk]

/-- C6: when a `groupby_agg` step is added with one or more group-filter
columns chosen, the recorded step's `group_col` argument is the composite
list of the primary group column followed by the filter columns in selection
order (`addGroupFilterColumn` appends each newly chosen filter), and the
`group_filters` key is removed from the stored args; with no filter columns,
`group_col` remains the single primary column. -/
theorem c6_groupby_composite_group_key :
    ∀ (st : BuilderState) (p : String) (fs cur : List String) (c : String),
      st.opName = "groupby_agg" →
      st.selectedCols ≠ [] →
      argLookup st.opArgs "group_col" = some (ArgVal.str p) →
      ((addStep st).pipelineSteps =
          st.pipelineSteps ++ [⟨"groupby_agg", st.selectedCols, groupbyStepArgs st.opArgs⟩] ∧
        argLookup (groupbyStepArgs st.opArgs) "group_filters" = none) ∧
      (argLookup st.opArgs "group_filters" = some (ArgVal.strList fs) → fs ≠ [] →
        argLookup (groupbyStepArgs st.opArgs) "group_col" =
          some (ArgVal.strList (p :: fs))) ∧
      ((argLookup st.opArgs "group_filters" = none ∨
          argLookup st.opArgs "group_filters" = some (ArgVal.strList [])) →
        argLookup (groupbyStepArgs st.opArgs) "group_col" = some (ArgVal.str p)) ∧
      (c ≠ "" → c ∉ cur → addGroupFilterColumn cur c = cur ++ [c]) := by
  intro st p fs cur c hop hsel hgc
  have hgcval : ∀ gv, groupbyFinalGroupCol st.opArgs = gv →
      argLookup (groupbyStepArgs st.opArgs) "group_col" = some gv := by
    intro gv hgv
    unfold groupbyStepArgs
    rw [argLookup_jsDelKey_ne _ _ _ (by decide), argLookup_jsSetKey_self, hgv]
  refine ⟨⟨?_, ?_⟩, ?_, ?_, ?_⟩
  · unfold addStep
    rw [if_neg hsel, hop]
    rw [if_neg (by decide), if_pos rfl]
  · unfold groupbyStepArgs
    exact argLookup_jsDelKey_self _ _
  · intro hgf hne
    apply hgcval
    unfold groupbyFinalGroupCol
    cases fs with
    | nil => exact absurd rfl hne
    | cons f rest => rw [hgf, hgc]
  · intro hgf
    apply hgcval
    unfold groupbyFinalGroupCol
    rcases hgf with hgf | hgf
    · rw [hgf, hgc]
      rfl
    · rw [hgf, hgc]
      rfl
  · intro hcne hnotmem
    unfold addGroupFilterColumn
    rw [if_neg hcne, if_neg hnotmem]

/-- C6, witness: at a concrete builder state with primary group column
`"id"` and filters `["venue", "dist"]`, `addStep` records the composite key
`["id", "venue", "dist"]` and removes `group_filters`; with no filters the
single key `"id"` is kept; `addGroupFilterColumn` appends a new choice. -/
theorem c6_groupby_composite_group_key_witness :
    argLookup
        (groupbyStepArgs
          [("group_col", ArgVal.str "id"), ("func", ArgVal.str "mean"),
            ("group_filters", ArgVal.strList ["venue", "dist"])])
        "group_col" = some (ArgVal.strList ["id", "venue", "dist"]) ∧
      argLookup
        (groupbyStepArgs
          [("group_col", ArgVal.str "id"), ("func", ArgVal.str "mean"),
            ("group_filters", ArgVal.strList ["venue", "dist"])])
        "group_filters" = none ∧
      argLookup (groupbyStepArgs [("group_col", ArgVal.str "id")]) "group_col" =
        some (ArgVal.str "id") ∧
      addGroupFilterColumn ["venue"] "dist" = ["venue", "dist"] := by
  have h1 := c6_groupby_composite_group_key
    ⟨[], ["x"], "groupby_agg",
      [("group_col", ArgVal.str "id"), ("func", ArgVal.str "mean"),
        ("group_filters", ArgVal.strList ["venue", "dist"])]⟩
    "id" ["venue", "dist"] ["venue"] "dist" rfl (by decide) (by decide)
  have h2 := c6_groupby_composite_group_key
    ⟨[], ["x"], "groupby_agg", [("group_col", ArgVal.str "id")]⟩
    "id" [] [] "" rfl (by decide) (by decide)
  exact ⟨h1.2.1 (by decide) (by decide), h1.1.2,
    h2.2.2.1 (Or.inl (by decide)), h1.2.2.2 (by decide) (by decide)⟩

/-- C10: for op `lag` with a non-empty column selection and `max_lag`
parsing to `n ≥ 1` (defaulting to `1` when absent), `addStep` appends
exactly `n` steps whose `periods` arguments are `1..n` in increasing order,
each carrying a copy of the full selected-column list and the configured
`group_col`/`sort_col`, and clears the selection; for every op other than
`lag`, `groupby_agg` and `custom_formula` it appends exactly one step with
the selected columns and the configured args and clears the selection. -/
theorem c10_addStep_lag_and_generic :
    ∀ (st : BuilderState) (n : Nat),
      st.selectedCols ≠ [] →
      ((st.opName = "lag" → maxLagOf st.opArgs = some n → 1 ≤ n →
          (addStep st).pipelineSteps =
            st.pipelineSteps ++
              (List.range n).map
                (fun (k : Nat) => ⟨"lag", st.selectedCols, lagStepArgs st.opArgs ((k : Int) + 1)⟩) ∧
          ((addStep st).pipelineSteps).length = st.pipelineSteps.length + n ∧
          (addStep st).selectedCols = []) ∧
        (st.opName ≠ "lag" → st.opName ≠ "groupby_agg" → st.opName ≠ "custom_formula" →
          (addStep st).pipelineSteps =
            st.pipelineSteps ++ [⟨st.opName, st.selectedCols, st.opArgs⟩] ∧
          (addStep st).selectedCols = [])) := by
  intro st n hsel
  constructor
  · intro hlag hmax hpos
    have hsteps : lagSteps st =
        (List.range n).map
          (fun (k : Nat) => ⟨"lag", st.selectedCols, lagStepArgs st.opArgs ((k : Int) + 1)⟩) := by
      unfold lagSteps
      rw [hmax]
    have haddeq : addStep st =
        { st with pipelineSteps := st.pipelineSteps ++ lagSteps st, selectedCols := [] } := by
      unfold addStep
      rw [if_neg hsel, if_pos hlag]
    rw [haddeq]
    refine ⟨by rw [hsteps], ?_, rfl⟩
    show (st.pipelineSteps ++ lagSteps st).length = _
    rw [hsteps, List.length_append, List.length_map, List.length_range]
  · intro hnl hng _
    have haddeq : addStep st =
        { st with
          pipelineSteps := st.pipelineSteps ++ [⟨st.opName, st.selectedCols, st.opArgs⟩]
          selectedCols := [] } := by
      unfold addStep
      rw [if_neg hsel, if_neg hnl, if_neg hng]
    rw [haddeq]
    exact ⟨rfl, rfl⟩

/-- C10, witness: with `max_lag = "3"` on columns `["x", "y"]`, `addStep`
appends lag steps with periods 1, 2, 3 (same `group_col`/`sort_col`) and
clears the selection; with op `log` it appends the single configured step. -/
theorem c10_addStep_lag_and_generic_witness :
    (addStep ⟨[], ["x", "y"], "lag",
        [("group_col", ArgVal.str "id"), ("sort_col", ArgVal.str "t"),
          ("max_lag", ArgVal.str "3")]⟩).pipelineSteps =
      [⟨"lag", ["x", "y"],
          [("group_col", ArgVal.str "id"), ("sort_col", ArgVal.str "t"),
            ("periods", ArgVal.num 1)]⟩,
        ⟨"lag", ["x", "y"],
          [("group_col", ArgVal.str "id"), ("sort_col", ArgVal.str "t"),
            ("periods", ArgVal.num 2)]⟩,
        ⟨"lag", ["x", "y"],
          [("group_col", ArgVal.str "id"), ("sort_col", ArgVal.str "t"),
            ("periods", ArgVal.num 3)]⟩] ∧
      (addStep ⟨[], ["x", "y"], "lag",
          [("group_col", ArgVal.str "id"), ("sort_col", ArgVal.str "t"),
            ("max_lag", ArgVal.str "3")]⟩).selectedCols = [] ∧
      (addStep ⟨[], ["a"], "log", []⟩).pipelineSteps = [⟨"log", ["a"], []⟩] := by
  have h1 := c10_addStep_lag_and_generic
    ⟨[], ["x", "y"], "lag",
      [("group_col", ArgVal.str "id"), ("sort_col", ArgVal.str "t"),
        ("max_lag", ArgVal.str "3")]⟩ 3 (by decide)
  have h2 := c10_addStep_lag_and_generic ⟨[], ["a"], "log", []⟩ 1 (by decide)
  have hl := h1.1 rfl (by decide) (by decide)
  have hg := h2.2 (by decide) (by decide) (by decide)
  exact ⟨hl.1.trans (by decide), hl.2.2, hg.1.trans (by decide)⟩

lemma execFrom_shift (steps : List FlatTrans) :
    ∀ (t : Table) (j : Nat),
      execFrom t j steps =
        match execFrom t 0 steps with
        | Except.ok x => Except.ok x
        | Except.error (i, q) => Except.error (i + j, q) := by
  induction steps with
  | nil => intro t j; rfl
  | cons s rest ih =>
      intro t j
      cases happ : applyStep t s with
      | error r => simp [execFrom, happ]
      | ok t2 =>
          simp only [execFrom, happ]
          rw [ih t2 (j + 1), ih t2 (0 + 1)]
          cases hr : execFrom t2 0 rest with
          | ok x => rfl
          | error e =>
              cases e with
              | mk i q =>
                  simp only []
                  rw [show i + (0 + 1) + j = i + (j + 1) by omega]

lemma execFrom_zero_error (steps : List FlatTrans) :
    ∀ (t : Table) (i : Nat) (r : String),
      execFrom t 0 steps = Except.error (i, r) →
      ∃ t2, execFrom t 0 (steps.take i) = Except.ok t2 ∧
        ∃ s, steps[i]? = some s ∧ applyStep t2 s = Except.error r := by
  induction steps with
  | nil => intro t i r h; exact absurd h (by simp [execFrom])
  | cons s rest ih =>
      intro t i r h
      cases happ : applyStep t s with
      | error r0 =>
          simp only [execFrom, happ] at h
          have hir : 0 = i ∧ r0 = r := by
            have h2 := h
            simp only [Except.error.injEq, Prod.mk.injEq] at h2
            exact h2
          rcases hir with ⟨hi, hr⟩
          subst hi; subst hr
          refine ⟨t, rfl, s, ?_, happ⟩
          simp
      | ok t2 =>
          simp only [execFrom, happ] at h
          rw [execFrom_shift rest t2] at h
          cases hrest : execFrom t2 0 rest with
          | ok x =>
              rw [hrest] at h
              exact absurd h (by simp)
          | error e =>
              cases e with
              | mk i0 q =>
                  rw [hrest] at h
                  simp only [Except.error.injEq, Prod.mk.injEq] at h
                  rcases h with ⟨hi, hq⟩
                  subst hq
                  have hieq : i = i0 + 1 := by omega
                  subst hieq
                  rcases ih t2 i0 q hrest with ⟨t3, htake, s0, hget, happ0⟩
                  refine ⟨t3, ?_, s0, ?_, happ0⟩
                  · rw [List.take_succ_cons]
                    simp only [execFrom, happ]
                    rw [execFrom_shift (rest.take i0) t2, htake]
                  · simpa using hget

/-- C3: if any step of `execute` fails, the whole execution aborts reporting
the failing step's index and reason — the steps before that index all
succeeded and the step at that index is the one that failed — and no partial
materialization is committed: the registry keeps the previously committed
materialization untouched. -/
theorem c3_executor_abort_no_partial_commit :
    ∀ (snap : Table) (steps : List FlatTrans) (i : Nat) (r : String),
      executeSteps snap steps = Except.error (i, r) →
      (∃ t2, executeSteps snap (steps.take i) = Except.ok t2 ∧
        ∃ s, steps[i]? = some s ∧ applyStep t2 s = Except.error r) ∧
      i < steps.length ∧
      ∀ prev, registryUpdate prev snap steps = prev := by
  intro snap steps i r h
  have hmain := execFrom_zero_error steps snap i r h
  refine ⟨hmain, ?_, ?_⟩
  · rcases hmain with ⟨-, -, s, hget, -⟩
    rcases List.getElem?_eq_some.mp hget with ⟨hlt, -⟩
    exact hlt
  · intro prev
    unfold registryUpdate
    rw [show executeSteps snap steps = execFrom snap 0 steps from rfl] at h ⊢
    rw [h]

/-- C3, witness: a two-step pipeline whose second step has an unknown op
aborts with index 1 and the unknown-op reason, after the first step
succeeded; the registry keeps the previous materialization. -/
theorem c3_executor_abort_no_partial_commit_witness :
    registryUpdate (some [("m", [some (5 : ℚ)])])
        [("a", [some (1 : ℚ), none])]
        [⟨"fillna", "a", [("value", ArgVal.num 0)]⟩, ⟨"bogus", "a", []⟩] =
      some [("m", [some (5 : ℚ)])] ∧
      1 < ([⟨"fillna", "a", [("value", ArgVal.num 0)]⟩,
            (⟨"bogus", "a", []⟩ : FlatTrans)]).length := by
  have h := c3_executor_abort_no_partial_commit [("a", [some (1 : ℚ), none])]
    [⟨"fillna", "a", [("value", ArgVal.num 0)]⟩, ⟨"bogus", "a", []⟩]
    1 "unknown op bogus" (by decide)
  exact ⟨h.2.2 (some [("m", [some (5 : ℚ)])]), h.2.1⟩


lemma corrStep_mem_mono (ct : ℚ) (kept : List GenCol) (c x : GenCol)
    (h : x ∈ kept) : x ∈ corrStep ct kept c := by
  unfold corrStep
  split_ifs
  · exact h
  · exact List.mem_append_left _ h

lemma corrStep_mem_cases (ct : ℚ) (kept : List GenCol) (c x : GenCol)
    (h : x ∈ corrStep ct kept c) : x ∈ kept ∨ x = c := by
  unfold corrStep at h
  split_ifs at h
  · exact Or.inl h
  · rcases List.mem_append.mp h with h | h
    · exact Or.inl h
    · exact Or.inr (List.mem_singleton.mp h)

lemma foldl_corrStep_mono (ct : ℚ) (l : List GenCol) :
    ∀ (acc : List GenCol) (x : GenCol), x ∈ acc → x ∈ l.foldl (corrStep ct) acc := by
  induction l with
  | nil => intro acc x h; exact h
  | cons c cs ih =>
      intro acc x h
      exact ih (corrStep ct acc c) x (corrStep_mem_mono ct acc c x h)

lemma foldl_corrStep_subset (ct : ℚ) (l : List GenCol) :
    ∀ (acc : List GenCol) (x : GenCol),
      x ∈ l.foldl (corrStep ct) acc → x ∈ acc ∨ x ∈ l := by
  induction l with
  | nil => intro acc x h; exact Or.inl h
  | cons c cs ih =>
      intro acc x h
      rcases ih (corrStep ct acc c) x h with h2 | h2
      · rcases corrStep_mem_cases ct acc c x h2 with h3 | h3
        · exact Or.inl h3
        · exact Or.inr (by rw [h3]; exact List.mem_cons_self c cs)
      · exact Or.inr (List.mem_cons_of_mem c h2)

/-- C5: auto-generation pruning is deterministic in generation order — a
generated column with variance below `variance_threshold` never survives, a
column with exactly zero variance never survives regardless of the
threshold, and two variance-surviving columns with |correlation| exactly
1 (cov² equals the product of the positive variances) never both survive:
whenever the earlier one is kept the later one is dropped — in particular
when the earlier one heads the variance-kept list, it survives and the
later one is dropped. -/
theorem c5_autogen_pruning_order :
    ∀ (cols : List GenCol) (vt ct : ℚ) (l1 l2 l3 : List GenCol) (c c1 c2 : GenCol),
      (listVar c.vals < vt → c ∉ autoPrune cols vt ct) ∧
      (listVar c.vals = 0 → c ∉ autoPrune cols vt ct) ∧
      (varianceKept cols vt = l1 ++ c1 :: (l2 ++ c2 :: l3) →
        (varianceKept cols vt).Nodup →
        0 ≤ ct → ct < 1 →
        listCov c1.vals c2.vals ^ 2 = listVar c1.vals * listVar c2.vals →
        0 < listVar c1.vals * listVar c2.vals →
        ¬(c1 ∈ autoPrune cols vt ct ∧ c2 ∈ autoPrune cols vt ct) ∧
          (l1 = [] → c1 ∈ autoPrune cols vt ct ∧ c2 ∉ autoPrune cols vt ct)) := by
  intro cols vt ct l1 l2 l3 c c1 c2
  have hsubVK : ∀ x, x ∈ autoPrune cols vt ct → x ∈ varianceKept cols vt := by
    intro x hx
    unfold autoPrune corrKept at hx
    rcases foldl_corrStep_subset ct (varianceKept cols vt) [] x hx with h | h
    · exact absurd h (List.not_mem_nil x)
    · exact h
  refine ⟨?_, ?_, ?_⟩
  · intro hvar hmem
    have := (List.mem_filter.mp (hsubVK c hmem)).2
    have hp := of_decide_eq_true this
    exact hp.1 hvar
  · intro hvar hmem
    have := (List.mem_filter.mp (hsubVK c hmem)).2
    have hp := of_decide_eq_true this
    exact hp.2 hvar
  · intro hsplit hnd hct0 hct1 hcov hpos
    have hcorr : corrExceeds c1 c2 ct = true := by
      unfold corrExceeds
      apply decide_eq_true
      calc ct ^ 2 * listVar c1.vals * listVar c2.vals
          = ct ^ 2 * (listVar c1.vals * listVar c2.vals) := by ring
        _ < 1 * (listVar c1.vals * listVar c2.vals) := by
            apply mul_lt_mul_of_pos_right _ hpos
            exact pow_lt_one₀ hct0 hct1 (by norm_num)
        _ = listCov c1.vals c2.vals ^ 2 := by rw [one_mul, hcov]
    -- Nodup facts
    rw [hsplit] at hnd
    have htail : (c1 :: (l2 ++ c2 :: l3)).Nodup := hnd.of_append_right
    have hc1notin : c1 ∉ l2 ++ c2 :: l3 := (List.nodup_cons.mp htail).1
    have htail2 : (l2 ++ c2 :: l3).Nodup := (List.nodup_cons.mp htail).2
    have hc1nl2 : c1 ∉ l2 := fun h => hc1notin (List.mem_append_left _ h)
    have hc1ne2 : c1 ≠ c2 := fun h =>
      hc1notin (List.mem_append_right _ (by rw [h]; exact List.mem_cons_self c2 l3))
    have hc2nl3 : c2 ∉ l3 :=
      (List.nodup_cons.mp htail2.of_append_right).1
    have hdisj2 := List.disjoint_of_nodup_append htail2
    have hc2nl2 : c2 ∉ l2 := fun h => hdisj2 h (List.mem_cons_self c2 l3)
    have hdisj1 := List.disjoint_of_nodup_append hnd
    have hc2nl1 : c2 ∉ l1 := fun h =>
      hdisj1 h (List.mem_cons_of_mem c1 (List.mem_append_right _ (List.mem_cons_self c2 l3)))
    -- the fold decomposed at c1 and c2
    have hres : autoPrune cols vt ct =
        List.foldl (corrStep ct)
          (corrStep ct
            (List.foldl (corrStep ct)
              (corrStep ct (List.foldl (corrStep ct) [] l1) c1) l2) c2) l3 := by
      unfold autoPrune corrKept
      rw [hsplit, List.foldl_append, List.foldl_cons, List.foldl_append, List.foldl_cons]
    set A1 := List.foldl (corrStep ct) [] l1 with hA1
    set A2 := corrStep ct A1 c1 with hA2
    set A3 := List.foldl (corrStep ct) A2 l2 with hA3
    have hA2sub : ∀ x, x ∈ A2 → x ∈ l1 ∨ x = c1 := by
      intro x hx
      rcases corrStep_mem_cases ct A1 c1 x hx with h | h
      · rcases foldl_corrStep_subset ct l1 [] x h with h2 | h2
        · exact absurd h2 (List.not_mem_nil x)
        · exact Or.inl h2
      · exact Or.inr h
    have hA3sub : ∀ x, x ∈ A3 → x ∈ l1 ∨ x = c1 ∨ x ∈ l2 := by
      intro x hx
      rcases foldl_corrStep_subset ct l2 A2 x hx with h | h
      · rcases hA2sub x h with h2 | h2
        · exact Or.inl h2
        · exact Or.inr (Or.inl h2)
      · exact Or.inr (Or.inr h)
    have hc2nA3 : c2 ∉ A3 := by
      intro h
      rcases hA3sub c2 h with h2 | h2 | h2
      · exact hc2nl1 h2
      · exact hc1ne2 h2.symm
      · exact hc2nl2 h2
    have hc1nl3 : c1 ∉ l3 := fun h =>
      hc1notin (List.mem_append_right _ (List.mem_cons_of_mem c2 h))
    have hkey : c1 ∈ A3 →
        corrStep ct A3 c2 = A3 ∧ c2 ∉ autoPrune cols vt ct := by
      intro hc1A3
      have hany : A3.any (fun k => corrExceeds k c2 ct) = true :=
        List.any_eq_true.mpr ⟨c1, hc1A3, hcorr⟩
      have hstep : corrStep ct A3 c2 = A3 := by
        unfold corrStep
        rw [if_pos hany]
      refine ⟨hstep, ?_⟩
      intro hc2mem
      rw [hres, hstep] at hc2mem
      rcases foldl_corrStep_subset ct l3 A3 c2 hc2mem with h | h
      · exact hc2nA3 h
      · exact hc2nl3 h
    constructor
    · rintro ⟨hc1mem, hc2mem⟩
      -- from c1 surviving, c1 is already kept when c2 is examined
      have hc1A3 : c1 ∈ A3 := by
        rw [hres] at hc1mem
        rcases foldl_corrStep_subset ct l3 _ c1 hc1mem with h | h
        · rcases corrStep_mem_cases ct A3 c2 c1 h with h2 | h2
          · exact h2
          · exact absurd h2 hc1ne2
        · exact absurd h hc1nl3
      exact (hkey hc1A3).2 hc2mem
    · intro hl1
      have hc1A2 : c1 ∈ A2 := by
        rw [hA2, hA1, hl1]
        show c1 ∈ corrStep ct [] c1
        unfold corrStep
        rw [if_neg (by simp)]
        exact List.mem_cons_self c1 []
      have hc1A3 : c1 ∈ A3 := foldl_corrStep_mono ct l2 A2 c1 hc1A2
      refine ⟨?_, (hkey hc1A3).2⟩
      rw [hres]
      apply foldl_corrStep_mono
      apply corrStep_mem_mono
      exact hc1A3

/-- C5, witness: for generated columns `x = [0,1]`, `y = [0,2]` (perfectly
correlated) and `z = [3,3]` (zero variance), with `variance_threshold = 0`
and `correlation_threshold = 0.95`, pruning keeps `x`, drops `y` (correlation
exactly 1 with the earlier `x`) and drops `z` (zero variance). -/
theorem c5_autogen_pruning_order_witness :
    ⟨"x", [0, 1]⟩ ∈ autoPrune [⟨"x", [0, 1]⟩, ⟨"y", [0, 2]⟩, ⟨"z", [3, 3]⟩] 0 (95 / 100) ∧
      ⟨"y", [0, 2]⟩ ∉ autoPrune [⟨"x", [0, 1]⟩, ⟨"y", [0, 2]⟩, ⟨"z", [3, 3]⟩] 0 (95 / 100) ∧
      ⟨"z", [3, 3]⟩ ∉ autoPrune [⟨"x", [0, 1]⟩, ⟨"y", [0, 2]⟩, ⟨"z", [3, 3]⟩] 0 (95 / 100) := by
  have hvarx : listVar [(0 : ℚ), 1] = 1 / 4 := by
    norm_num [listVar, listMean]
  have hvary : listVar [(0 : ℚ), 2] = 1 := by
    norm_num [listVar, listMean]
  have hvarz : listVar [(3 : ℚ), 3] = 0 := by
    norm_num [listVar, listMean]
  have hcov : listCov [(0 : ℚ), 1] [(0 : ℚ), 2] = 1 / 2 := by
    norm_num [listCov, listMean]
  have hvk : varianceKept [⟨"x", [0, 1]⟩, ⟨"y", [0, 2]⟩, ⟨"z", [3, 3]⟩] 0 =
      [] ++ ⟨"x", [0, 1]⟩ :: ([] ++ ⟨"y", [0, 2]⟩ :: []) := by
    unfold varianceKept
    rw [List.filter_cons, List.filter_cons, List.filter_cons, List.filter_nil]
    rw [show (decide (¬listVar (⟨"x", [0, 1]⟩ : GenCol).vals < 0 ∧
        listVar (⟨"x", [0, 1]⟩ : GenCol).vals ≠ 0)) = true by
      simp [hvarx]]
    rw [show (decide (¬listVar (⟨"y", [0, 2]⟩ : GenCol).vals < 0 ∧
        listVar (⟨"y", [0, 2]⟩ : GenCol).vals ≠ 0)) = true by
      simp [hvary]]
    rw [show (decide (¬listVar (⟨"z", [3, 3]⟩ : GenCol).vals < 0 ∧
        listVar (⟨"z", [3, 3]⟩ : GenCol).vals ≠ 0)) = false by
      simp [hvarz]]
    rfl
  have h := c5_autogen_pruning_order [⟨"x", [0, 1]⟩, ⟨"y", [0, 2]⟩, ⟨"z", [3, 3]⟩]
    0 (95 / 100) [] [] [] ⟨"z", [3, 3]⟩ ⟨"x", [0, 1]⟩ ⟨"y", [0, 2]⟩
  have h3 := h.2.2 hvk (by rw [hvk]; simp) (by norm_num) (by norm_num)
    (by show listCov [(0 : ℚ), 1] [(0 : ℚ), 2] ^ 2 = _
        rw [hcov, hvarx, hvary]; norm_num)
    (by rw [hvarx, hvary]; norm_num)
  have hhead := h3.2 rfl
  exact ⟨hhead.1, hhead.2, h.2.1 hvarz⟩

lemma groupAccum_absorb (cs : List String) :
    ∀ (cur : TStep) (rest : List FlatTrans),
      groupAccum cur (cs.map (fun c => ⟨cur.op, c, cur.args⟩) ++ rest) =
        groupAccum { cur with cols := cur.cols ++ cs } rest := by
  induction cs with
  | nil =>
      intro cur rest
      rw [List.map_nil, List.nil_append, List.append_nil]
  | cons c cs ih =>
      intro cur rest
      rw [List.map_cons, List.cons_append]
      show groupAccum cur (⟨cur.op, c, cur.args⟩ :: _) = _
      simp only [groupAccum]
      rw [if_pos ⟨trivial, trivial⟩]
      have h2 := ih ⟨cur.op, cur.cols ++ [c], cur.args⟩ rest
      have heq : (cur.cols ++ [c]) ++ cs = cur.cols ++ c :: cs := by simp
      rw [heq] at h2
      exact h2

lemma groupAccum_flatten :
    ∀ (steps : List TStep) (cur : TStep),
      (∀ s ∈ steps, s.cols ≠ []) →
      List.Chain' (fun a b => ¬(b.op = a.op ∧ b.args = a.args)) (cur :: steps) →
      groupAccum cur (flattenSteps steps) = cur :: steps := by
  intro steps
  induction steps with
  | nil => intro cur _ _; rfl
  | cons s rest ih =>
      intro cur hne hchain
      obtain ⟨sop, scols, sargs⟩ := s
      have hs : scols ≠ [] := by
        have := hne _ (List.mem_cons_self _ _)
        simpa using this
      cases scols with
      | nil => exact absurd rfl hs
      | cons c0 cs =>
          have hflat : flattenSteps (⟨sop, c0 :: cs, sargs⟩ :: rest) =
              ⟨sop, c0, sargs⟩ ::
                (cs.map (fun c => ⟨sop, c, sargs⟩) ++ flattenSteps rest) := by
            unfold flattenSteps
            rw [List.flatMap_cons]
            rfl
          rw [hflat]
          have hpair := List.chain'_cons.mp hchain
          have hhead : ¬(sop = cur.op ∧ sargs = cur.args) := by
            simpa using hpair.1
          simp only [groupAccum]
          rw [if_neg hhead]
          congr 1
          have habs := groupAccum_absorb cs ⟨sop, [c0], sargs⟩ (flattenSteps rest)
          have hmain := ih ⟨sop, c0 :: cs, sargs⟩
            (fun t ht => hne t (List.mem_cons_of_mem _ ht)) hpair.2
          exact habs.trans hmain

/-- C9: `groupTransformations` is a left inverse of the submit-time
flattening on well-formed pipelines — for every step list in which every
step has a non-empty `cols` list and no two consecutive steps share both op
and (stringified) args, regrouping the flattened transformation list
recovers exactly the original steps (ops, args and column sequences, in
order). -/
theorem c9_groupTransformations_left_inverse :
    ∀ (steps : List TStep),
      (∀ s ∈ steps, s.cols ≠ []) →
      List.Chain' (fun a b => ¬(b.op = a.op ∧ b.args = a.args)) steps →
      groupTransformations (flattenSteps steps) = steps := by
  intro steps hne hchain
  cases steps with
  | nil => rfl
  | cons s rest =>
      obtain ⟨sop, scols, sargs⟩ := s
      have hs : scols ≠ [] := by
        have := hne _ (List.mem_cons_self _ _)
        simpa using this
      cases scols with
      | nil => exact absurd rfl hs
      | cons c0 cs =>
          have hflat : flattenSteps (⟨sop, c0 :: cs, sargs⟩ :: rest) =
              ⟨sop, c0, sargs⟩ ::
                (cs.map (fun c => ⟨sop, c, sargs⟩) ++ flattenSteps rest) := by
            unfold flattenSteps
            rw [List.flatMap_cons]
            rfl
          rw [hflat]
          show groupAccum ⟨sop, [c0], sargs⟩
              (cs.map (fun c => ⟨sop, c, sargs⟩) ++ flattenSteps rest) = _
          have habs := groupAccum_absorb cs ⟨sop, [c0], sargs⟩ (flattenSteps rest)
          have hmain := groupAccum_flatten rest ⟨sop, c0 :: cs, sargs⟩
            (fun t ht => hne t (List.mem_cons_of_mem _ ht)) hchain
          exact habs.trans hmain

/-- C9, witness: a three-step pipeline (two `log` steps separated by a `lag`
step, so non-consecutive duplicates stay distinct) survives the
flatten-then-regroup round trip unchanged. -/
theorem c9_groupTransformations_left_inverse_witness :
    groupTransformations
        (flattenSteps
          [⟨"log", ["a", "b"], []⟩, ⟨"lag", ["a"], [("periods", ArgVal.num 1)]⟩,
            ⟨"log", ["c"], []⟩]) =
      [⟨"log", ["a", "b"], []⟩, ⟨"lag", ["a"], [("periods", ArgVal.num 1)]⟩,
        ⟨"log", ["c"], []⟩] :=
  c9_groupTransformations_left_inverse
    [⟨"log", ["a", "b"], []⟩, ⟨"lag", ["a"], [("periods", ArgVal.num 1)]⟩,
      ⟨"log", ["c"], []⟩]
    (by decide)
    (by
      refine List.chain'_cons.mpr ⟨by decide, ?_⟩
      refine List.chain'_cons.mpr ⟨by decide, ?_⟩
      exact List.chain'_singleton _)

end MLOPS
